import Mathlib

/-!
Verification of the serde2 JSON value bridge (`src/serde2/src/json/value.rs`)
and the positional byte iterator (`src/src/iter.rs`).

The Rust code is shallowly embedded: the tagged `Value` tree, the
tree-building `Serializer` (an explicit stack of partially built frames),
the tree-consuming `Deserializer` with its `SeqDeserializer` /
`MapDeserializer` element drivers, and the `LineColIterator` decorator.
Panics (`unwrap` on `None`, explicit panic calls) are modelled as `none` /
a dedicated failure value; recoverable errors are modelled with `Except`.
Machine integers are modelled as `Nat`/`Int`; `f64` payloads are carried as
their 64-bit IEEE-754 bit patterns (the code only moves them, it never
computes with them).
-/

namespace Serde

/-- The `Value` enum of `value.rs` (lines 11-20):
`Null | Bool | I64 | F64 | String | Array(Vec<Value>) | Object(BTreeMap<String,Value>)`.
The `BTreeMap` is modelled as an association list whose well-formed states
have strictly ascending keys; `f64` is carried as its bit pattern. -/
inductive Value where
  | null
  | bool (b : Bool)
  | i64 (n : Int)
  | f64 (bits : Nat)
  | string (s : String)
  | array (elems : List Value)
  | object (entries : List (String × Value))

/-- The private `State` enum of the tree builder (`value.rs` lines 64-68):
a frame is a completed value, an array under construction, or an object
under construction.  The builder's `Vec<State>` stack is modelled as a
`List State` whose head is the top of the stack. -/
inductive State where
  | value (v : Value)
  | array (elems : List Value)
  | object (entries : List (String × Value))

/-- Error kind used by the consume direction: `de::Error::end_of_stream_error()`
is the only error the code in `value.rs` ever constructs. -/
inductive ErrK where
  | endOfStream
deriving DecidableEq

/-! ### Rust `f64` equality (for the derived `PartialEq` on `Value`)

`#[derive(PartialEq)]` on `Value` compares `F64` payloads with IEEE-754
`==`: `NaN != NaN`, and `+0.0 == -0.0`.  On bit patterns this is decidable
without any floating-point arithmetic: two non-NaN patterns are IEEE-equal
iff they are identical or both are zeros. -/

/-- A 64-bit pattern is a NaN iff its exponent field (bits 62-52) is all
ones and its mantissa (bits 51-0) is non-zero. -/
def f64_is_nan (bits : Nat) : Bool :=
  ((bits / 2 ^ 52) % 2 ^ 11 == 2 ^ 11 - 1) && (bits % 2 ^ 52 != 0)

/-- IEEE-754 `==` on two 64-bit patterns (for patterns below `2 ^ 64`):
false if either is NaN, otherwise true iff the patterns coincide or both
are (positive or negative) zero. -/
def f64_eq (a b : Nat) : Bool :=
  !f64_is_nan a && !f64_is_nan b && (a == b || (a % 2 ^ 63 == 0 && b % 2 ^ 63 == 0))

mutual

/-- The derived `PartialEq` on `Value` (`#[derive(PartialEq)]`, line 11):
structural comparison, with `F64` payloads compared by IEEE-754 `==`. -/
def valueEq : Value → Value → Bool
  | Value.null, Value.null => true
  | Value.bool a, Value.bool b => a == b
  | Value.i64 a, Value.i64 b => a == b
  | Value.f64 a, Value.f64 b => f64_eq a b
  | Value.string a, Value.string b => a == b
  | Value.array a, Value.array b => valueListEq a b
  | Value.object a, Value.object b => valueEntriesEq a b
  | _, _ => false

/-- `PartialEq` on `Vec<Value>`: pointwise, same length. -/
def valueListEq : List Value → List Value → Bool
  | [], [] => true
  | a :: as_, b :: bs => valueEq a b && valueListEq as_ bs
  | _, _ => false

/-- `PartialEq` on the object entry sequences (a `BTreeMap` compares its
sorted entry sequences pointwise). -/
def valueEntriesEq : List (String × Value) → List (String × Value) → Bool
  | [], [] => true
  | (k, a) :: as_, (k', b) :: bs => k == k' && valueEq a b && valueEntriesEq as_ bs
  | _, _ => false

end

/-! ### The `BTreeMap<String, Value>` key order and insertion

Rust's `BTreeMap` orders `String` keys by `Ord`, which is byte-wise
lexicographic comparison of the UTF-8 encoding; that order coincides with
lexicographic comparison of the code points, modelled here on the
character lists of Lean strings. -/

/-- Lexicographic strict order on character lists by code point. -/
def charsLt : List Char → List Char → Bool
  | _, [] => false
  | [], _ :: _ => true
  | a :: as_, b :: bs =>
    if a < b then true
    else if b < a then false
    else charsLt as_ bs

/-- The `Ord`-order on Rust `String` map keys. -/
def keyLt (a b : String) : Bool := charsLt a.data b.data

/-- `BTreeMap::insert` on the sorted association-list model: place the new
entry at its ordered position; an existing equal key has its value
overwritten (last write wins). -/
def btreeInsert (k : String) (v : Value) : List (String × Value) → List (String × Value)
  | [] => [(k, v)]
  | (k', v') :: rest =>
    if keyLt k k' then (k, v) :: (k', v') :: rest
    else if k == k' then (k, v) :: rest
    else (k', v') :: btreeInsert k v rest

/-- Ascending-key invariant of a `BTreeMap` entry sequence. -/
abbrev SortedKeys (es : List (String × Value)) : Prop :=
  es.Pairwise (fun p q => keyLt p.1 q.1 = true)

/-! ### The tree builder (`Serializer`, `value.rs` lines 70-249)

The builder's visitor methods mutate a stack of `State` frames.  Scalar
visits push a completed-value frame and return `Ok(())`; the composite
cases pop/inspect and call `panic` out of contract.  All panics (`unwrap`
on an empty pop, the explicit panic arms) are modelled as `none`.

Serializing a whole `Value` composes the `Serialize` impl for `Value`
(lines 22-37, in the source) with the impls for `Vec<Value>`, for
`BTreeMap<String, Value>` and for the scalar types, which live elsewhere
in the repository.  Those are modelled from the spec: a sequence source
emits `visit_seq` followed by one `visit_seq_elt` per element in order; a
mapping source emits `visit_map` followed by one
`visit_map_elt(first, key, value)` per entry in stored (ascending key)
order, the key emitted before the value; a `String` key source emits
`visit_str`. -/

mutual

/-- Run the emission of one `Value` source against the builder stack
(`impl ser::Serialize for Value`, lines 22-37): scalars push one
completed-value frame; `Array` runs `visit_seq` (push an empty array
frame, emit the elements, pop the array frame and repush it completed,
lines 161-183); `Object` runs `visit_map` symmetrically (lines 205-222).
`none` models a panic. -/
def serValue : Value → List State → Option (List State)
  | Value.null, st => some (State.value Value.null :: st)
  | Value.bool b, st => some (State.value (Value.bool b) :: st)
  | Value.i64 n, st => some (State.value (Value.i64 n) :: st)
  | Value.f64 x, st => some (State.value (Value.f64 x) :: st)
  | Value.string s, st => some (State.value (Value.string s) :: st)
  | Value.array vs, st =>
    match serSeqElems vs (State.array [] :: st) with
    | some (State.array values :: rest) => some (State.value (Value.array values) :: rest)
    | some _ => none
    | none => none
  | Value.object es, st =>
    match serMapElems es (State.object [] :: st) with
    | some (State.object values :: rest) => some (State.value (Value.object values) :: rest)
    | some _ => none
    | none => none

/-- One `visit_seq_elt` call per element (lines 186-202): serialize the
element, pop the resulting frame (panic unless it is a completed value),
and append it to the array frame now on top (panic unless it is one). -/
def serSeqElems : List Value → List State → Option (List State)
  | [], st => some st
  | v :: vs, st =>
    match serValue v st with
    | some (State.value value :: State.array values :: rest) =>
      serSeqElems vs (State.array (values ++ [value]) :: rest)
    | some _ => none
    | none => none

/-- One `visit_map_elt` call per entry (lines 225-248): serialize the key,
then the value; then pop twice.  `Vec::pop` returns the most recently
pushed frame, so the FIRST pop yields the serialized value's frame, and it
is this frame the code binds as `key` and requires to be a `String`
(panicking otherwise); the second pop — the serialized key's frame — is
bound as `value`.  The entry inserted into the object frame therefore has
the serialized value as its key and the serialized key as its value. -/
def serMapElems : List (String × Value) → List State → Option (List State)
  | [], st => some st
  | (k, v) :: es, st =>
    match serValue v (State.value (Value.string k) :: st) with
    | some (State.value (Value.string s1) :: State.value v2 :: State.object entries :: rest) =>
      serMapElems es (State.object (btreeInsert s1 v2 entries) :: rest)
    | some _ => none
    | none => none

end

/-- `visit_map` for a raw mapping source emitting the listed
`(key, value)` pairs in the listed order (lines 205-222 around the
per-entry calls): push an empty object frame, run the entries, pop the
object frame (panic unless it is one) and repush it completed. -/
def visitMapRun (ps : List (String × Value)) (st : List State) : Option (List State) :=
  match serMapElems ps (State.object [] :: st) with
  | some (State.object values :: rest) => some (State.value (Value.object values) :: rest)
  | some _ => none
  | none => none

/-- A single `visit_map_elt(first, key, value)` call with an arbitrary
serializable key and value (lines 225-248), exactly as in the source:
`key.visit` then `value.visit`, then the two pops in `Vec::pop` order with
the string requirement imposed on the first pop, then insertion into the
object frame on top. -/
def visitMapElt (key value : Value) (st : List State) : Option (List State) :=
  match serValue key st with
  | none => none
  | some st1 =>
    match serValue value st1 with
    | some (State.value (Value.string s1) :: State.value v2 :: State.object entries :: rest) =>
      some (State.object (btreeInsert s1 v2 entries) :: rest)
    | some _ => none
    | none => none

/-- The `u64 as i64` truncating cast of `visit_u64` (line 126): two's
complement reinterpretation of the 64-bit pattern. -/
def u64_as_i64 (n : Nat) : Int :=
  if n < 2 ^ 63 then (n : Int) else (n : Int) - 2 ^ 64

/-- `visit_u64` (lines 124-128): always returns `Ok(())`, pushing an `I64`
frame holding the truncating cast of the input. -/
def visit_u64 (st : List State) (n : Nat) : List State :=
  State.value (Value.i64 (u64_as_i64 n)) :: st

/-- `Serializer::unwrap` (lines 81-86): pop the top frame — panicking
(`none`) when the stack is empty — and return its value if it is a
completed value, panicking otherwise.  Frames below the top are not
inspected. -/
def unwrap : List State → Option Value
  | State.value v :: _ => some v
  | _ => none

/-- `to_value` (lines 395-401): run the source against a fresh builder and
`unwrap` the stack; `none` models a panic anywhere on the way. -/
def to_value (v : Value) : Option Value :=
  match serValue v [] with
  | some st => unwrap st
  | none => none

/-! ### The tree consumer (`Deserializer`, `value.rs` lines 251-392)

The consumer holds a single `Option<Value>` slot.  `visit` takes the slot
(end-of-stream error when empty) and dispatches the one matching visitor
primitive; `Array`/`Object` nodes hand the visitor a `SeqDeserializer` /
`MapDeserializer` driver that shares the consumer, re-fills the slot with
one element at a time and recursively deserializes it.

The sink driving the claims is the `Value` target itself.  Its
`Deserialize` impl is not under `src/`; it is modelled from the spec
(§4.3, §8): each primitive produces the corresponding `Value` node; for a
sequence the sink pulls elements until the driver answers "no more" and
then calls `end()`; for a mapping it pulls key/value pairs the same way,
deserializing each key into a `String`.

All functions thread the consumer's slot explicitly: a pull writes
`de.value = Some(element)` and immediately deserializes, so the fused
loops below pass the freshly written slot straight into the recursive
consumption and carry the slot left behind by it. -/

/-- Modelled from the spec: deserializing a `String` (the mapping key
target, §4.3) from the consumer — take the slot (end-of-stream error when
empty), succeed on a `String` node.  The non-string branch never fires
from `MapDeserializer::visit_key`, which always feeds a `String` node; the
spec (§4.3) folds it into the single end-of-stream error kind. -/
def deKeyString : Option Value → Except ErrK String × Option Value
  | none => (Except.error ErrK.endOfStream, none)
  | some (Value.string s) => (Except.ok s, none)
  | some _ => (Except.error ErrK.endOfStream, none)

mutual

/-- Consume one `Value` just taken out of the consumer's slot
(`Deserializer::visit`, lines 267-300, composed with the spec-modelled
`Value` sink): scalars are rebuilt directly; an `Array` drives the
`SeqDeserializer` pull loop, an `Object` the `MapDeserializer` pull loop.
Returns the visitor result together with the consumer slot left behind
(the slot was just emptied by the take, so the loops start from `none`). -/
def consumeOne : Value → Except ErrK Value × Option Value
  | Value.null => (Except.ok Value.null, none)
  | Value.bool b => (Except.ok (Value.bool b), none)
  | Value.i64 n => (Except.ok (Value.i64 n), none)
  | Value.f64 x => (Except.ok (Value.f64 x), none)
  | Value.string s => (Except.ok (Value.string s), none)
  | Value.array vs =>
    match seqLoop vs vs.length none [] with
    | (Except.ok ts, slot) => (Except.ok (Value.array ts), slot)
    | (Except.error e, slot) => (Except.error e, slot)
  | Value.object es =>
    match mapLoop es es.length none [] with
    | (Except.ok ts, slot) => (Except.ok (Value.object ts), slot)
    | (Except.error e, slot) => (Except.error e, slot)

/-- The sequence pull loop: the sink repeatedly calls
`SeqDeserializer::visit` (lines 323-334: advance the iterator, decrement
`len`, refill the consumer slot, deserialize one element) and, on "no
more", calls `end()` (lines 336-342: `Ok` iff `len` reached zero).
Arguments: remaining iterator, remaining `len`, consumer slot,
accumulated elements. -/
def seqLoop : List Value → Nat → Option Value → List Value →
    Except ErrK (List Value) × Option Value
  | [], len, slot, acc =>
    (if len = 0 then Except.ok acc else Except.error ErrK.endOfStream, slot)
  | v :: rest, len, _slot, acc =>
    match consumeOne v with
    | (Except.ok t, slot') => seqLoop rest (len - 1) slot' (acc ++ [t])
    | (Except.error e, slot') => (Except.error e, slot')

/-- The mapping pull loop: the sink alternates
`MapDeserializer::visit_key` (lines 359-371: advance the iterator,
decrement `len`, stash the entry's value, feed `Value::String(key)`
through the consumer into the key target) and
`MapDeserializer::visit_value` (lines 373-379: move the stashed value into
the consumer slot and deserialize it), and on "no more" calls `end()`
(lines 381-387: `Ok` iff `len` reached zero). -/
def mapLoop : List (String × Value) → Nat → Option Value → List (String × Value) →
    Except ErrK (List (String × Value)) × Option Value
  | [], len, slot, acc =>
    (if len = 0 then Except.ok acc else Except.error ErrK.endOfStream, slot)
  | (k, v) :: rest, len, _slot, acc =>
    match deKeyString (some (Value.string k)) with
    | (Except.ok s, _) =>
      match consumeOne v with
      | (Except.ok t, slot') => mapLoop rest (len - 1) slot' (acc ++ [(s, t)])
      | (Except.error e, slot') => (Except.error e, slot')
    | (Except.error e, slot1) => (Except.error e, slot1)

end

/-- `Deserializer::visit` into the `Value` sink, with the slot state
explicit (lines 267-300): take the slot — `end_of_stream_error` when it is
already empty — and consume the taken node. -/
def deVisit : Option Value → Except ErrK Value × Option Value
  | none => (Except.error ErrK.endOfStream, none)
  | some v => consumeOne v

/-- The primitive dispatched by one `Deserializer::visit` call, sink left
abstract (lines 276-299): which visitor method is invoked with which
payload; composite nodes hand over a driver whose iterator and
remaining-count are recorded.  The empty-slot branch dispatches nothing:
it errors before any visitor method is reached. -/
inductive Dispatch where
  | unit
  | bool (b : Bool)
  | i64 (n : Int)
  | f64 (bits : Nat)
  | string (s : String)
  | seq (iter : List Value) (len : Nat)
  | map (iter : List (String × Value)) (len : Nat)

/-- The take-and-dispatch step of `Deserializer::visit` (lines 267-300). -/
def deDispatch : Option Value → Except ErrK Dispatch × Option Value
  | none => (Except.error ErrK.endOfStream, none)
  | some Value.null => (Except.ok Dispatch.unit, none)
  | some (Value.bool b) => (Except.ok (Dispatch.bool b), none)
  | some (Value.i64 n) => (Except.ok (Dispatch.i64 n), none)
  | some (Value.f64 x) => (Except.ok (Dispatch.f64 x), none)
  | some (Value.string s) => (Except.ok (Dispatch.string s), none)
  | some (Value.array vs) => (Except.ok (Dispatch.seq vs vs.length), none)
  | some (Value.object es) => (Except.ok (Dispatch.map es es.length), none)

/-- `from_value` into the `Value` target (lines 404-409): a fresh consumer
holding `Some(value)`, then one `deserialize` call. -/
def from_value (v : Value) : Except ErrK Value :=
  (deVisit (some v)).1

/-- The `SeqDeserializer` driver state (lines 314-318): the remaining
element iterator and the remaining-count. -/
structure SeqDeserializer where
  iter : List Value
  len : Nat

/-- `SeqDeserializer::visit` (lines 323-334), one pull with the consumer
slot explicit: on a next element, decrement `len`, set the slot to the
element and deserialize it (into the `Value` target), answering
`Ok(Some(..))`; on exhaustion answer `Ok(None)` touching neither `len` nor
the slot. -/
def SeqDeserializer.visit (s : SeqDeserializer) (slot : Option Value) :
    Except ErrK (Option Value) × SeqDeserializer × Option Value :=
  match s.iter with
  | v :: rest =>
    match consumeOne v with
    | (Except.ok t, slot') => (Except.ok (some t), ⟨rest, s.len - 1⟩, slot')
    | (Except.error e, slot') => (Except.error e, ⟨rest, s.len - 1⟩, slot')
  | [] => (Except.ok none, s, slot)

/-- `SeqDeserializer::end` (lines 336-342): `Ok` iff the remaining-count
is exactly zero, `end_of_stream_error` otherwise. -/
def SeqDeserializer.endCall (s : SeqDeserializer) : Except ErrK Unit :=
  if s.len = 0 then Except.ok () else Except.error ErrK.endOfStream

/-! ### The positional byte iterator (`src/src/iter.rs`)

`LineColIterator` wraps a `Peekable` iterator of `io::Result<u8>`, tracked
here as a list of `Except Unit Nat` (the error payload is irrelevant to
position tracking).  `line` is 1-based, `col` 0-based. -/

/-- `LineColIterator` (lines 4-17): the remaining items plus the current
line and column. -/
structure LineColIterator where
  iter : List (Except Unit Nat)
  line : Nat
  col : Nat

/-- `LineColIterator::new` (lines 11-17): start at line 1, column 0. -/
def LineColIterator.new (it : List (Except Unit Nat)) : LineColIterator :=
  ⟨it, 1, 0⟩

/-- `LineColIterator::peek` (line 35): look at the next item without
consuming it or moving the position. -/
def LineColIterator.peek (s : LineColIterator) : Option (Except Unit Nat) :=
  s.iter.head?

/-- `Iterator::next` for `LineColIterator` (lines 40-54): `\n` (byte 10)
increments `line` and resets `col` to 0 while still being returned as the
current item; any other byte increments `col`; an underlying error passes
through without moving the position. -/
def LineColIterator.next (s : LineColIterator) :
    Option (Except Unit Nat) × LineColIterator :=
  match s.iter with
  | [] => (none, s)
  | Except.ok c :: rest =>
    if c = 10 then (some (Except.ok 10), ⟨rest, s.line + 1, 0⟩)
    else (some (Except.ok c), ⟨rest, s.line, s.col + 1⟩)
  | Except.error e :: rest => (some (Except.error e), ⟨rest, s.line, s.col⟩)

/-- Iterate `next` a given number of times, keeping the final state. -/
def LineColIterator.stepN (s : LineColIterator) : Nat → LineColIterator
  | 0 => s
  | n + 1 => LineColIterator.stepN (s.next).2 n

/-- The byte sequence of `"ab\ncd"`. -/
def abNewlineCd : List (Except Unit Nat) :=
  [Except.ok 97, Except.ok 98, Except.ok 10, Except.ok 99, Except.ok 100]

/-! ### Order lemmas for the key order -/

theorem charsLt_trans : ∀ a b c : List Char,
    charsLt a b = true → charsLt b c = true → charsLt a c = true := by
  intro a
  induction a with
  | nil =>
    intro b c hab hbc
    cases c with
    | nil =>
      cases b with
      | nil => simp [charsLt] at hab
      | cons q qs => simp [charsLt] at hbc
    | cons r rs => simp [charsLt]
  | cons p ps ih =>
    intro b c hab hbc
    cases b with
    | nil => simp [charsLt] at hab
    | cons q qs =>
      cases c with
      | nil => simp [charsLt] at hbc
      | cons r rs =>
        simp only [charsLt] at hab hbc ⊢
        rcases lt_trichotomy p q with h1 | h1 | h1
        · rcases lt_trichotomy q r with h2 | h2 | h2
          · simp [lt_trans h1 h2]
          · subst h2; simp [h1]
          · simp [lt_asymm h2, h2] at hbc
        · subst h1
          rcases lt_trichotomy p r with h2 | h2 | h2
          · simp [h2]
          · subst h2
            simp [lt_irrefl] at hab hbc ⊢
            exact ih qs rs hab hbc
          · simp [lt_asymm h2, h2] at hbc
        · simp [lt_asymm h1, h1] at hab

theorem charsLt_eq_of_not_lt : ∀ a b : List Char,
    charsLt a b = false → charsLt b a = false → a = b := by
  intro a
  induction a with
  | nil =>
    intro b hab _
    cases b with
    | nil => rfl
    | cons q qs => simp [charsLt] at hab
  | cons p ps ih =>
    intro b hab hba
    cases b with
    | nil => simp [charsLt] at hba
    | cons q qs =>
      simp only [charsLt] at hab hba
      rcases lt_trichotomy p q with h1 | h1 | h1
      · simp [h1] at hab
      · subst h1
        simp [lt_irrefl] at hab hba
        exact congrArg (p :: ·) (ih qs hab hba)
      · simp [h1] at hba

theorem keyLt_trans {a b c : String} (hab : keyLt a b = true) (hbc : keyLt b c = true) :
    keyLt a c = true :=
  charsLt_trans a.data b.data c.data hab hbc

theorem keyLt_flip {a b : String} (hab : keyLt a b = false) (hne : (a == b) = false) :
    keyLt b a = true := by
  by_cases h : keyLt b a = true
  · exact h
  · exfalso
    have hdata : a.data = b.data :=
      charsLt_eq_of_not_lt a.data b.data hab (by simpa using h)
    have : a = b := by
      cases a with
      | mk da => cases b with
        | mk db => exact congrArg String.mk hdata
    simp [this] at hne

/-! ### `btreeInsert` preserves the ascending-key invariant -/

theorem mem_btreeInsert : ∀ (es : List (String × Value)) (p : String × Value) (k : String) (v : Value),
    p ∈ btreeInsert k v es → p = (k, v) ∨ p ∈ es := by
  intro es
  induction es with
  | nil => intro p k v hp; simpa [btreeInsert] using hp
  | cons q rest ih =>
    intro p k v hp
    rcases q with ⟨k', v'⟩
    simp only [btreeInsert] at hp
    by_cases h1 : keyLt k k' = true
    · rw [if_pos h1] at hp
      simp only [List.mem_cons] at hp ⊢
      tauto
    · rw [if_neg h1] at hp
      by_cases h2 : (k == k') = true
      · rw [if_pos h2] at hp
        simp only [List.mem_cons] at hp ⊢
        tauto
      · rw [if_neg h2] at hp
        simp only [List.mem_cons] at hp ⊢
        rcases hp with h | h
        · tauto
        · rcases ih p k v h with h' | h' <;> tauto

theorem sortedKeys_btreeInsert : ∀ (es : List (String × Value)) (k : String) (v : Value),
    SortedKeys es → SortedKeys (btreeInsert k v es) := by
  intro es
  induction es with
  | nil => intro k v _; simp [btreeInsert]
  | cons q rest ih =>
    intro k v hs
    rcases q with ⟨k', v'⟩
    rcases List.pairwise_cons.mp hs with ⟨hhd, htl⟩
    simp only [btreeInsert]
    by_cases h1 : keyLt k k' = true
    · rw [if_pos h1]
      refine List.pairwise_cons.mpr ⟨?_, hs⟩
      intro q hq
      rcases List.mem_cons.mp hq with h | h
      · simpa [h] using h1
      · exact keyLt_trans h1 (hhd q h)
    · rw [if_neg h1]
      by_cases h2 : (k == k') = true
      · rw [if_pos h2]
        have hk : k = k' := by simpa using h2
        refine List.pairwise_cons.mpr ⟨?_, htl⟩
        intro q hq
        simpa [hk] using hhd q hq
      · rw [if_neg h2]
        have h1' : keyLt k k' = false := by simpa using h1
        have h2' : (k == k') = false := by simpa using h2
        refine List.pairwise_cons.mpr ⟨?_, ih k v htl⟩
        intro q hq
        rcases mem_btreeInsert rest q k v hq with h | h
        · simpa [h] using keyLt_flip h1' h2'
        · exact hhd q h

/-! ### The consume direction rebuilds every node and empties the slot -/

theorem seqLoop_ok : ∀ (vs acc : List Value),
    (∀ v ∈ vs, consumeOne v = (Except.ok v, none)) →
    seqLoop vs vs.length none acc = (Except.ok (acc ++ vs), none) := by
  intro vs
  induction vs with
  | nil => intro acc _; simp [seqLoop]
  | cons v rest ih =>
    intro acc h
    have hv := h v (List.mem_cons_self v rest)
    have hrest : ∀ x ∈ rest, consumeOne x = (Except.ok x, none) :=
      fun x hx => h x (List.mem_cons_of_mem v hx)
    simp only [seqLoop, List.length_cons, hv, Nat.add_sub_cancel]
    rw [ih (acc ++ [v]) hrest]
    simp

theorem mapLoop_ok : ∀ (es acc : List (String × Value)),
    (∀ p ∈ es, consumeOne p.2 = (Except.ok p.2, none)) →
    mapLoop es es.length none acc = (Except.ok (acc ++ es), none) := by
  intro es
  induction es with
  | nil => intro acc _; simp [mapLoop]
  | cons p rest ih =>
    intro acc h
    rcases p with ⟨k, v⟩
    have hv := h (k, v) (List.mem_cons_self (k, v) rest)
    have hrest : ∀ x ∈ rest, consumeOne x.2 = (Except.ok x.2, none) :=
      fun x hx => h x (List.mem_cons_of_mem (k, v) hx)
    simp only [mapLoop, List.length_cons, deKeyString, hv, Nat.add_sub_cancel]
    rw [ih (acc ++ [(k, v)]) hrest]
    simp

theorem consumeOne_ok_aux : ∀ (n : Nat) (v : Value), sizeOf v ≤ n →
    consumeOne v = (Except.ok v, none) := by
  intro n
  induction n with
  | zero =>
    intro v hv
    exfalso
    cases v <;> simp at hv
  | succ n ih =>
    intro v hv
    cases v with
    | null => simp [consumeOne]
    | bool b => simp [consumeOne]
    | i64 m => simp [consumeOne]
    | f64 x => simp [consumeOne]
    | string s => simp [consumeOne]
    | array vs =>
      have hmem : ∀ x ∈ vs, consumeOne x = (Except.ok x, none) := by
        intro x hx
        apply ih
        have h1 : sizeOf x < sizeOf vs := List.sizeOf_lt_of_mem hx
        have h2 : sizeOf (Value.array vs) = 1 + sizeOf vs := by simp
        omega
      simp [consumeOne, seqLoop_ok vs [] hmem]
    | object es =>
      have hmem : ∀ p ∈ es, consumeOne p.2 = (Except.ok p.2, none) := by
        intro p hp
        apply ih
        have h1 : sizeOf p < sizeOf es := List.sizeOf_lt_of_mem hp
        have h2 : sizeOf p.2 < sizeOf p := by
          rcases p with ⟨a, b⟩; simp
        have h3 : sizeOf (Value.object es) = 1 + sizeOf es := by simp
        omega
      simp [consumeOne, mapLoop_ok es [] hmem]

/-- Consuming any `Value` through the driver machinery rebuilds it exactly
and leaves the consumer slot empty. -/
theorem consumeOne_ok (v : Value) : consumeOne v = (Except.ok v, none) :=
  consumeOne_ok_aux (sizeOf v) v le_rfl

/-! ### Frame discipline of the build direction

A successful emission run nets exactly one frame on top of the incoming
stack: a completed value for a whole source, a grown array frame for a
sequence-element run, an object frame — with the ascending-key invariant
preserved — for a mapping-entry run. -/

theorem ser_shape_aux : ∀ n : Nat,
    (∀ v : Value, sizeOf v ≤ n → ∀ st stOut, serValue v st = some stOut →
      ∃ w, stOut = State.value w :: st)
    ∧ (∀ vs : List Value, sizeOf vs ≤ n → ∀ acc st stOut,
        serSeqElems vs (State.array acc :: st) = some stOut →
        ∃ ws, stOut = State.array (acc ++ ws) :: st)
    ∧ (∀ ps : List (String × Value), sizeOf ps ≤ n → ∀ acc st stOut,
        serMapElems ps (State.object acc :: st) = some stOut →
        ∃ es, stOut = State.object es :: st ∧ (SortedKeys acc → SortedKeys es)) := by
  intro n
  induction n using Nat.strong_induction_on with
  | _ n ih =>
    refine ⟨?_, ?_, ?_⟩
    · intro v hv st stOut h
      cases v with
      | null => exact ⟨Value.null, (Option.some.inj h).symm⟩
      | bool b => exact ⟨Value.bool b, (Option.some.inj h).symm⟩
      | i64 m => exact ⟨Value.i64 m, (Option.some.inj h).symm⟩
      | f64 x => exact ⟨Value.f64 x, (Option.some.inj h).symm⟩
      | string s => exact ⟨Value.string s, (Option.some.inj h).symm⟩
      | array vs =>
        have hvs : sizeOf vs < n := by
          have hsz : sizeOf (Value.array vs) = 1 + sizeOf vs := by simp
          omega
        simp only [serValue] at h
        cases hE : serSeqElems vs (State.array [] :: st) with
        | none => rw [hE] at h; exact Option.noConfusion h
        | some st2 =>
          obtain ⟨ws, h2⟩ := (ih (sizeOf vs) hvs).2.1 vs le_rfl [] st st2 hE
          subst h2
          rw [hE] at h
          have h3 := (Option.some.inj h).symm
          exact ⟨Value.array ws, by simpa using h3⟩
      | object es =>
        have hes : sizeOf es < n := by
          have hsz : sizeOf (Value.object es) = 1 + sizeOf es := by simp
          omega
        simp only [serValue] at h
        cases hE : serMapElems es (State.object [] :: st) with
        | none => rw [hE] at h; exact Option.noConfusion h
        | some st2 =>
          obtain ⟨ws, h2, _⟩ := (ih (sizeOf es) hes).2.2 es le_rfl [] st st2 hE
          subst h2
          rw [hE] at h
          exact ⟨Value.object ws, (Option.some.inj h).symm⟩
    · intro vs hvs acc st stOut h
      cases vs with
      | nil => exact ⟨[], by simpa using (Option.some.inj h).symm⟩
      | cons v rest =>
        have hv : sizeOf v < n := by
          have hsz : sizeOf (v :: rest) = 1 + sizeOf v + sizeOf rest := by simp
          have hpos : 1 ≤ sizeOf rest := by cases rest <;> simp_arith
          omega
        have hrest : sizeOf rest < n := by
          have hsz : sizeOf (v :: rest) = 1 + sizeOf v + sizeOf rest := by simp
          have hpos : 1 ≤ sizeOf v := by cases v <;> simp_arith
          omega
        simp only [serSeqElems] at h
        cases hE : serValue v (State.array acc :: st) with
        | none => rw [hE] at h; exact Option.noConfusion h
        | some st1 =>
          obtain ⟨w, h1⟩ := (ih (sizeOf v) hv).1 v le_rfl _ _ hE
          subst h1
          rw [hE] at h
          obtain ⟨ws, h2⟩ := (ih (sizeOf rest) hrest).2.1 rest le_rfl (acc ++ [w]) st stOut h
          exact ⟨w :: ws, by simpa [List.append_assoc] using h2⟩
    · intro ps hps acc st stOut h
      cases ps with
      | nil => exact ⟨acc, (Option.some.inj h).symm, fun hs => hs⟩
      | cons p rest =>
        rcases p with ⟨k, v⟩
        have hv : sizeOf v < n := by
          have hsz : sizeOf ((k, v) :: rest) = 1 + (1 + sizeOf k + sizeOf v) + sizeOf rest := by
            simp
          have hpos : 1 ≤ sizeOf rest := by cases rest <;> simp_arith
          omega
        have hrest : sizeOf rest < n := by
          have hsz : sizeOf ((k, v) :: rest) = 1 + (1 + sizeOf k + sizeOf v) + sizeOf rest := by
            simp
          omega
        simp only [serMapElems] at h
        cases hE : serValue v (State.value (Value.string k) :: State.object acc :: st) with
        | none => rw [hE] at h; exact Option.noConfusion h
        | some st1 =>
          obtain ⟨w, h1⟩ := (ih (sizeOf v) hv).1 v le_rfl _ _ hE
          subst h1
          rw [hE] at h
          cases w with
          | null => exact Option.noConfusion h
          | bool b => exact Option.noConfusion h
          | i64 m => exact Option.noConfusion h
          | f64 x => exact Option.noConfusion h
          | array ws => exact Option.noConfusion h
          | object ws => exact Option.noConfusion h
          | string s1 =>
            obtain ⟨es, h2, hsort⟩ :=
              (ih (sizeOf rest) hrest).2.2 rest le_rfl
                (btreeInsert s1 (Value.string k) acc) st stOut h
            exact ⟨es, h2, fun hacc =>
              hsort (sortedKeys_btreeInsert acc s1 (Value.string k) hacc)⟩

/-- A successful whole-value emission pushes exactly one completed-value
frame on top of the incoming stack. -/
theorem serValue_shape {v : Value} {st stOut : List State}
    (h : serValue v st = some stOut) : ∃ w, stOut = State.value w :: st :=
  (ser_shape_aux (sizeOf v)).1 v le_rfl st stOut h

/-- A successful mapping-entry run starting from an empty object frame
leaves an object frame whose keys satisfy the ascending-key invariant. -/
theorem serMapElems_sorted {ps : List (String × Value)} {st stOut : List State}
    (h : serMapElems ps (State.object [] :: st) = some stOut) :
    ∃ es, stOut = State.object es :: st ∧ SortedKeys es := by
  obtain ⟨es, h1, h2⟩ := (ser_shape_aux (sizeOf ps)).2.2 ps le_rfl [] st stOut h
  exact ⟨es, h1, h2 (List.Pairwise.nil)⟩

/-- Sequence elements are appended to the array frame in emission order:
if every element serializes (on any stack) to its built frame, the element
run extends the array frame by exactly those built values, in order. -/
theorem serSeqElems_order : ∀ (vs ws : List Value),
    List.Forall₂ (fun v w => ∀ st', serValue v st' = some (State.value w :: st')) vs ws →
    ∀ acc st, serSeqElems vs (State.array acc :: st) = some (State.array (acc ++ ws) :: st) := by
  intro vs ws hf
  induction hf with
  | nil => intro acc st; simp [serSeqElems]
  | cons h1 _ ih =>
    intro acc st
    rename_i v w rest wrest _
    simp only [serSeqElems, h1 (State.array acc :: st)]
    rw [ih (acc ++ [w]) st]
    simp

/-! ### Claim theorems -/

/-- C1: the claim states that for every well-formed `Value` v,
`from_value(to_value(&v)) == Ok(v)`.  The code violates it: `visit_map_elt`
pops the serialized value frame first (`Vec::pop` order) and binds it as
the map key, so building `Object({"a": String("b")})` produces
`Object({"b": String("a")})` — the round trip returns a value that is not
`PartialEq`-equal to the input. -/
theorem round_trip_swaps_object_entries :
    to_value (Value.object [("a", Value.string "b")])
      = some (Value.object [("b", Value.string "a")])
    ∧ from_value (Value.object [("b", Value.string "a")])
      = Except.ok (Value.object [("b", Value.string "a")])
    ∧ valueEq (Value.object [("b", Value.string "a")])
        (Value.object [("a", Value.string "b")]) = false :=
  ⟨rfl, rfl, rfl⟩

/-- C2: the claim states that a key not serializing to a string makes the
builder report a recoverable type-mismatch error value.  In the code the
string check lands on the wrong frame: with the non-string key `Int(1)`
and the string value `"x"`, `visit_map_elt` succeeds silently, inserting
the entry `"x" -> Int(1)`; and with a non-string value it panics (there is
no error value at all — the builder's error type is `()`). -/
theorem map_elt_checks_value_frame_not_key :
    visitMapElt (Value.i64 1) (Value.string "x") [State.object []]
      = some [State.object [("x", Value.i64 1)]]
    ∧ visitMapElt (Value.i64 1) (Value.i64 2) [State.object []] = none :=
  ⟨rfl, rfl⟩

/-- C3 (counterexample): a stack holding two completed-value frames is not
the claimed "exactly one frame" shape, yet `unwrap` silently returns the
top value instead of treating the shape as a fatal defect. -/
theorem unwrap_two_frames_cex :
    unwrap [State.value (Value.bool true), State.value Value.null]
      = some (Value.bool true)
    ∧ ([State.value (Value.bool true), State.value Value.null] : List State).length ≠ 1 :=
  ⟨rfl, by decide⟩

/-- C3 (amended): `unwrap` inspects only the top frame: it panics on an
empty stack or when the top frame is an in-progress array/object, and
returns the top frame's value whenever the top frame is a completed value,
without detecting frames left below — serializing two values and
unwrapping silently yields the second on a two-frame stack. -/
theorem unwrap_checks_only_top :
    (∀ (v : Value) (rest : List State), unwrap (State.value v :: rest) = some v)
    ∧ unwrap [] = none
    ∧ (∀ (vs : List Value) (rest : List State), unwrap (State.array vs :: rest) = none)
    ∧ (∀ (es : List (String × Value)) (rest : List State),
        unwrap (State.object es :: rest) = none)
    ∧ (∀ (v w : Value) (st1 st2 : List State),
        serValue v [] = some st1 → serValue w st1 = some st2 →
        (∃ u, unwrap st2 = some u) ∧ st2.length = 2) := by
  refine ⟨fun v rest => rfl, rfl, fun vs rest => rfl, fun es rest => rfl, ?_⟩
  intro v w st1 st2 h1 h2
  obtain ⟨a, rfl⟩ := serValue_shape h1
  obtain ⟨b, rfl⟩ := serValue_shape h2
  exact ⟨⟨b, rfl⟩, rfl⟩

/-- C3 (witness): the amended statement applied at the concrete run that
serializes `Null` and then `Bool(true)` into the same builder. -/
theorem unwrap_checks_only_top_w :
    (∃ u, unwrap [State.value (Value.bool true), State.value Value.null] = some u)
    ∧ ([State.value (Value.bool true), State.value Value.null] : List State).length = 2 :=
  unwrap_checks_only_top.2.2.2.2 Value.null (Value.bool true)
    [State.value Value.null]
    [State.value (Value.bool true), State.value Value.null] rfl rfl

/-- C4: the claim states that building from a source emitting `"a":1` then
`"a":2` yields `Object({"a": Int(2)})`.  The code panics instead on the
very first entry: `visit_map_elt` pops the value frame `Int(1)` where it
requires the string key.  The `BTreeMap` insertion itself (second
conjunct) would indeed overwrite on duplicate keys — the failure is the
frame swap, not the map. -/
theorem dup_key_source_panics :
    visitMapRun [("a", Value.i64 1), ("a", Value.i64 2)] [] = none
    ∧ btreeInsert "a" (Value.i64 2) (btreeInsert "a" (Value.i64 1) [])
      = [("a", Value.i64 2)] :=
  ⟨rfl, rfl⟩

/-- C5: array element order is preserved exactly — the build side appends
each element's built frame to the array frame in emission order, and the
consume side's `SeqDeserializer` pull loop yields the stored elements in
order — while any successfully built object frame has ascending keys (in
whatever order the source emitted its entries), and the
`MapDeserializer` pull loop yields the stored (ascending) entries in
stored order. -/
theorem order_preservation :
    (∀ (vs ws : List Value),
      List.Forall₂ (fun v w => ∀ st', serValue v st' = some (State.value w :: st')) vs ws →
      ∀ (acc : List Value) (st : List State),
        serSeqElems vs (State.array acc :: st) = some (State.array (acc ++ ws) :: st))
    ∧ (∀ (vs acc : List Value),
        seqLoop vs vs.length none acc = (Except.ok (acc ++ vs), none))
    ∧ (∀ (ps : List (String × Value)) (st stOut : List State),
        serMapElems ps (State.object [] :: st) = some stOut →
        ∃ es, stOut = State.object es :: st ∧ SortedKeys es)
    ∧ (∀ (es acc : List (String × Value)),
        mapLoop es es.length none acc = (Except.ok (acc ++ es), none)) := by
  refine ⟨serSeqElems_order, ?_, ?_, ?_⟩
  · intro vs acc
    exact seqLoop_ok vs acc (fun v _ => consumeOne_ok v)
  · intro ps st stOut h
    exact serMapElems_sorted h
  · intro es acc
    exact mapLoop_ok es acc (fun p _ => consumeOne_ok p.2)

/-- C5 (witness): the order statement applied to the concrete emission of
`[true, null]` (array order preserved) and to a mapping source emitting
string-valued entries under keys `"b"` then `"a"` (the successfully built
object frame has ascending keys). -/
theorem order_preservation_w :
    serSeqElems [Value.bool true, Value.null] (State.array [] :: [])
      = some (State.array ([] ++ [Value.bool true, Value.null]) :: [])
    ∧ (∃ es, [State.object [("x", Value.string "b"), ("y", Value.string "a")]]
        = State.object es :: ([] : List State) ∧ SortedKeys es) :=
  ⟨order_preservation.1 [Value.bool true, Value.null] [Value.bool true, Value.null]
      (List.Forall₂.cons (fun _ => rfl)
        (List.Forall₂.cons (fun _ => rfl) List.Forall₂.nil)) [] [],
   order_preservation.2.2.1 [("b", Value.string "x"), ("a", Value.string "y")] []
      [State.object [("x", Value.string "b"), ("y", Value.string "a")]] rfl⟩

/-- C6: `visit_u64` always succeeds, pushing an `I64` frame holding the
truncating `u64 as i64` cast of the input: the result is congruent to the
input modulo `2 ^ 64` and lies in the signed 64-bit range (the
two's-complement bit pattern is the input); in particular `2 ^ 63 + 5`
becomes `-9223372036854775803`. -/
theorem visit_u64_truncating_cast :
    (∀ (n : Nat) (st : List State), n < 2 ^ 64 →
      visit_u64 st n = State.value (Value.i64 (u64_as_i64 n)) :: st
      ∧ u64_as_i64 n % (2 ^ 64 : Int) = (n : Int)
      ∧ -(2 ^ 63 : Int) ≤ u64_as_i64 n ∧ u64_as_i64 n < 2 ^ 63)
    ∧ u64_as_i64 (2 ^ 63 + 5) = -9223372036854775803 := by
  constructor
  · intro n st hn
    refine ⟨rfl, ?_, ?_, ?_⟩ <;>
      · simp only [u64_as_i64]
        norm_num at hn ⊢
        split <;> omega
  · norm_num [u64_as_i64]

/-- C6 (witness): the cast statement applied at the concrete input
`2 ^ 63 + 5`. -/
theorem visit_u64_truncating_cast_w :
    visit_u64 [] (2 ^ 63 + 5)
      = State.value (Value.i64 (u64_as_i64 (2 ^ 63 + 5))) :: []
    ∧ u64_as_i64 (2 ^ 63 + 5) % (2 ^ 64 : Int) = ((2 ^ 63 + 5 : Nat) : Int)
    ∧ -(2 ^ 63 : Int) ≤ u64_as_i64 (2 ^ 63 + 5)
    ∧ u64_as_i64 (2 ^ 63 + 5) < 2 ^ 63 :=
  visit_u64_truncating_cast.1 (2 ^ 63 + 5) [] (by norm_num)

/-- C7: the consumer's single slot is moved out by each top-level `visit`:
with an empty slot, `visit` fails with the end-of-stream error and
dispatches nothing to the visitor; a filled slot is consumed successfully
and left empty, so a second `visit` without re-supplying a value fails
with end-of-stream. -/
theorem second_visit_end_of_stream :
    deVisit none = (Except.error ErrK.endOfStream, none)
    ∧ (∀ v : Value, deVisit (some v) = (Except.ok v, none))
    ∧ (∀ v : Value, deVisit ((deVisit (some v)).2) = (Except.error ErrK.endOfStream, none))
    ∧ deDispatch none = (Except.error ErrK.endOfStream, none) := by
  refine ⟨rfl, ?_, ?_, rfl⟩
  · intro v
    exact consumeOne_ok v
  · intro v
    have h : deVisit (some v) = (Except.ok v, none) := consumeOne_ok v
    rw [h]
    rfl

/-- C8: `SeqDeserializer::end` succeeds exactly when the remaining-count
is zero; pulling on an exhausted iterator answers `Ok(None)` without
error and without touching the state; concretely, claiming 3 elements but
pulling only 2 leaves `len = 1` so `end()` errors, while a pull after
exhaustion still answers `Ok(None)` and `end()` succeeds at zero. -/
theorem seq_driver_arity :
    (∀ s : SeqDeserializer, s.endCall = Except.ok () ↔ s.len = 0)
    ∧ (∀ (len : Nat) (slot : Option Value),
        SeqDeserializer.visit ⟨[], len⟩ slot = (Except.ok none, ⟨[], len⟩, slot))
    ∧ SeqDeserializer.visit ⟨[Value.i64 1, Value.i64 2, Value.i64 3], 3⟩ none
        = (Except.ok (some (Value.i64 1)), ⟨[Value.i64 2, Value.i64 3], 2⟩, none)
    ∧ SeqDeserializer.visit ⟨[Value.i64 2, Value.i64 3], 2⟩ none
        = (Except.ok (some (Value.i64 2)), ⟨[Value.i64 3], 1⟩, none)
    ∧ SeqDeserializer.endCall ⟨[Value.i64 3], 1⟩ = Except.error ErrK.endOfStream
    ∧ SeqDeserializer.visit ⟨[], 0⟩ none = (Except.ok none, ⟨[], 0⟩, none)
    ∧ SeqDeserializer.endCall ⟨[], 0⟩ = Except.ok () := by
  refine ⟨?_, fun len slot => rfl, rfl, rfl, rfl, rfl, rfl⟩
  intro s
  unfold SeqDeserializer.endCall
  split
  · rename_i h; simp [h]
  · rename_i h; simp [h]

/-- C9: the position tracker starts at line 1 and column 0; a newline byte
is returned as the current item while incrementing the line and resetting
the column, any other byte increments the column; consuming the bytes of
the string with bytes 97, 98, 10, 99, 100 one at a time passes through the
positions (1,1), (1,2), (2,0), (2,1). -/
theorem linecol_positions :
    ((LineColIterator.new abNewlineCd).line = 1
      ∧ (LineColIterator.new abNewlineCd).col = 0)
    ∧ (∀ (s : LineColIterator) (rest : List (Except Unit Nat)),
        s.iter = Except.ok 10 :: rest →
        s.next = (some (Except.ok 10), ⟨rest, s.line + 1, 0⟩))
    ∧ (∀ (s : LineColIterator) (c : Nat) (rest : List (Except Unit Nat)),
        s.iter = Except.ok c :: rest → c ≠ 10 →
        s.next = (some (Except.ok c), ⟨rest, s.line, s.col + 1⟩))
    ∧ ((LineColIterator.stepN (LineColIterator.new abNewlineCd) 1).line = 1
        ∧ (LineColIterator.stepN (LineColIterator.new abNewlineCd) 1).col = 1)
    ∧ ((LineColIterator.stepN (LineColIterator.new abNewlineCd) 2).line = 1
        ∧ (LineColIterator.stepN (LineColIterator.new abNewlineCd) 2).col = 2)
    ∧ ((LineColIterator.stepN (LineColIterator.new abNewlineCd) 3).line = 2
        ∧ (LineColIterator.stepN (LineColIterator.new abNewlineCd) 3).col = 0)
    ∧ ((LineColIterator.stepN (LineColIterator.new abNewlineCd) 4).line = 2
        ∧ (LineColIterator.stepN (LineColIterator.new abNewlineCd) 4).col = 1) := by
  refine ⟨⟨rfl, rfl⟩, ?_, ?_, ⟨rfl, rfl⟩, ⟨rfl, rfl⟩, ⟨rfl, rfl⟩, ⟨rfl, rfl⟩⟩
  · intro s rest h
    rcases s with ⟨it, line, col⟩
    simp only at h
    subst h
    rfl
  · intro s c rest h hc
    rcases s with ⟨it, line, col⟩
    simp only at h
    subst h
    simp [LineColIterator.next, hc]

/-- C9 (witness): the single-step statements applied at concrete states:
a newline byte from (line 7, col 3) moves to (8, 0); byte 97 from
(7, 3) moves to (7, 4). -/
theorem linecol_positions_w :
    LineColIterator.next ⟨[Except.ok 10], 7, 3⟩ = (some (Except.ok 10), ⟨[], 8, 0⟩)
    ∧ LineColIterator.next ⟨[Except.ok 97], 7, 3⟩ = (some (Except.ok 97), ⟨[], 7, 4⟩) :=
  ⟨linecol_positions.2.1 ⟨[Except.ok 10], 7, 3⟩ [] rfl,
   linecol_positions.2.2.1 ⟨[Except.ok 97], 7, 3⟩ 97 [] rfl (by decide)⟩

/-- C10: the claim states that `to_value` reproduces every `Value`
identically.  The code violates it on objects: `Object({"a": Int(1)})`
makes `to_value` panic (the value frame `Int(1)` is popped where the
string key is required), and `Object({"k": String("v")})` builds the
key/value-swapped `Object({"v": String("k")})`. -/
theorem to_value_object_not_identity :
    to_value (Value.object [("a", Value.i64 1)]) = none
    ∧ to_value (Value.object [("k", Value.string "v")])
      = some (Value.object [("v", Value.string "k")]) :=
  ⟨rfl, rfl⟩

end Serde
